import Mathlib

/-!
Verification of the hlist crate (src/src/lib.rs): a statically typed
heterogeneous list with type-indexed lookup.

The Rust source defines the unit struct Nil, the node Cons(pub H, pub T),
the push method of the marker trait HList, the index marker types Here and
There<T>, and the trait Find<T, I> with methods get and get_mut, with two
impl blocks: Find<T, Here> for Cons<T, Tail> and
Find<T, There<TailIndex>> for Cons<Head, Tail> where Tail: Find<T, TailIndex>.

Embedding choices:
- The type-level shape of an hlist (the chain of head types) is a List Type;
  hlistTy interprets a shape as the corresponding nested Cons/Nil type.
- A Rust instance derivation of Find<T, I> against a given hlist type is
  exactly a value of the indexed inductive Find below: constructor here is
  the base impl, constructor there is the recursive impl. Find.indexTy reads
  back the Rust index type I of a derivation.
- A mutable reference &mut T is embedded as a lens: the current value behind
  the reference together with the function writing a new value through it.
-/

/-- The empty hlist. Embeds the Rust unit struct Nil. -/
structure Nil : Type where

/-- An hlist with H at position 0 and T as the rest of the list. Embeds the
Rust tuple struct Cons(pub H, pub T): field fst is .0, field snd is .1. -/
structure Cons (H T : Type) : Type where
  fst : H
  snd : T

/-- Embeds HList::push: consumes the hlist and returns a new hlist with item
at the beginning, Cons(item, self). The receiver may be any type, matching
the unconstrained marker trait. -/
def HList.push {L N : Type} (self : L) (item : N) : Cons N L :=
  Cons.mk item self

/-- Index marker: Here is 0, pointing to the head of the hlist. Embeds the
Rust empty enum Here (it has no values; it is only an index type). -/
inductive Here : Type

/-- Index marker: There T is 1 + T. Embeds the Rust struct
There<T>(PhantomData<T>), which carries no data. -/
structure There (T : Type) : Type where

/-- Interprets a type-level shape as the nested Cons/Nil type it denotes. -/
def hlistTy : List Type → Type
  | [] => Nil
  | H :: t => Cons H (hlistTy t)

/-- Derivations of the Rust trait Find<T, I> over the type-level shape of an
hlist. A value of Find s T is an instance derivation showing that some index
of the hlist type with shape s is a T: constructor here embeds the impl
Find<T, Here> for Cons<T, Tail>, and constructor there embeds the impl
Find<T, There<TailIndex>> for Cons<Head, Tail> where Tail: Find<T, TailIndex>.
No constructor targets the empty shape, just as no impl targets Nil. -/
inductive Find : List Type → Type → Type 1
  | here {T : Type} {tail : List Type} : Find (T :: tail) T
  | there {Head T : Type} {tail : List Type} : Find tail T → Find (Head :: tail) T

/-- The Rust index type I named by a derivation: Here for the base impl and
There I for the recursive impl. -/
def Find.indexTy {s : List Type} {T : Type} : Find s T → Type
  | .here => Here
  | .there i => There i.indexTy

/-- Embeds Find::get. The base impl returns a reference to self.0, the head;
the recursive impl returns self.1.get(). -/
def Find.get {s : List Type} {T : Type} : Find s T → hlistTy s → T
  | .here, l => l.fst
  | .there i, l => Find.get i l.snd

/-- Embeds Find::get_mut, with the mutable reference rendered as a lens:
the value currently behind the reference, paired with the function that
writes a new value through it. The base impl hands out a reference to
self.0, so reading yields fst and writing replaces fst leaving snd alone;
the recursive impl returns exactly the reference self.1.get_mut() yields,
so reads and writes act inside snd and fst is untouched. -/
def Find.get_mut {s : List Type} {T : Type} : Find s T → hlistTy s → T × (T → hlistTy s)
  | .here, l => (l.fst, fun x => Cons.mk x l.snd)
  | .there i, l =>
      let r := Find.get_mut i l.snd
      (r.1, fun x => Cons.mk l.fst (r.2 x))

/-- Writing x through the mutable reference returned by get_mut. -/
def Find.write {s : List Type} {T : Type} (i : Find s T) (l : hlistTy s) (x : T) : hlistTy s :=
  (Find.get_mut i l).2 x

/-- The number of there steps in an index derivation: the slot it selects,
counting 0 at the head. -/
def Find.toNat {s : List Type} {T : Type} : Find s T → Nat
  | .here => 0
  | .there i => i.toNat + 1

/-- A heterogeneous value: an element type paired with a value of it. -/
abbrev HVal : Type 1 := (T : Type) × T

/-- The type-level shape of the sequence built by pushing the listed values,
most recently pushed value first. -/
def chainShape : List HVal → List Type
  | [] => []
  | v :: vs => v.1 :: chainShape vs

/-- The sequence built from the empty sequence by a chain of push calls:
buildChain [v1, ..., vn] is Nil.push(vn)...push(v1), so the first listed
value is the most recently pushed one and sits at the head. -/
def buildChain : (vs : List HVal) → hlistTy (chainShape vs)
  | [] => Nil.mk
  | v :: vs => HList.push (buildChain vs) v.2

/-- The position selecting slot k of a chain: k applications of there to
here, pointing at the element type of the k-th listed value. -/
def chainIdx : (vs : List HVal) → (k : Fin vs.length) → Find (chainShape vs) (vs.get k).1
  | [], k => k.elim0
  | _ :: _, ⟨0, _⟩ => Find.here
  | _ :: vs, ⟨k + 1, h⟩ => Find.there (chainIdx vs ⟨k, Nat.lt_of_succ_lt_succ h⟩)

/-- Model of the Rust i32 element type used by the examples. Only equality
of values matters here; the crate performs no arithmetic on elements. -/
structure I32 : Type where
  val : Int

/-- Model of the Rust i64 element type used by the examples. -/
structure I64 : Type where
  val : Int

/-- The construction example sequence Nil.push(0 as i32).push(1 as i64). -/
def exChain : hlistTy [I64, I32] :=
  HList.push (HList.push Nil.mk (I32.mk 0)) (I64.mk 1)

/-- The mutation example sequence Nil.push(5 as i32).push(Foo). -/
def exMut : hlistTy [String, I32] :=
  HList.push (HList.push Nil.mk (I32.mk 5)) "Foo"

/-- A variant of the mutation example differing only in its head slot. -/
def exMut2 : hlistTy [String, I32] :=
  HList.push (HList.push Nil.mk (I32.mk 5)) "Qux"

/-- The index of the String slot of exMut: zero steps. -/
def iStr : Find [String, I32] String := Find.here

/-- The index of the I32 slot of exMut: one step. -/
def iInt : Find [String, I32] I32 := Find.there Find.here

/-- Agreement of two hlists of the same shape at the slot an index selects,
read off by direct field projections along the derivation. -/
def Find.sameAt {s : List Type} {T : Type} : Find s T → hlistTy s → hlistTy s → Prop
  | .here, l1, l2 => l1.fst = l2.fst
  | .there i, l1, l2 => Find.sameAt i l1.snd l2.snd

/-- Fuel-indexed variant of Find.get: the same recursion with an explicit
step budget, returning none when the budget is exhausted. Used to state
that the recursion of get terminates within toNat i + 1 steps. -/
def Find.getFuel {s : List Type} {T : Type} : Nat → Find s T → hlistTy s → Option T
  | 0, _, _ => none
  | _ + 1, .here, l => some l.fst
  | fuel + 1, .there i, l => Find.getFuel fuel i l.snd

/-- Fuel-indexed variant of Find.get_mut, mirroring Find.getFuel. -/
def Find.get_mutFuel {s : List Type} {T : Type} :
    Nat → Find s T → hlistTy s → Option (T × (T → hlistTy s))
  | 0, _, _ => none
  | _ + 1, .here, l => some (l.fst, fun x => Cons.mk x l.snd)
  | fuel + 1, .there i, l =>
      match Find.get_mutFuel fuel i l.snd with
      | none => none
      | some r => some (r.1, fun x => Cons.mk l.fst (r.2 x))

theorem Find.get_write_same {s : List Type} {T : Type} (i : Find s T) :
    ∀ (l : hlistTy s) (x : T), Find.get i (Find.write i l x) = x := by
  induction i with
  | here => intro l x; rfl
  | there j ih => intro l x; exact ih l.snd x

theorem Find.get_write_other {s : List Type} {T U : Type} (i : Find s T) :
    ∀ (j : Find s U) (l : hlistTy s) (x : T), j.toNat ≠ i.toNat →
      Find.get j (Find.write i l x) = Find.get j l := by
  induction i with
  | here =>
    intro j l x hne
    cases j with
    | here => exact absurd rfl hne
    | there j => rfl
  | there i ih =>
    intro j l x hne
    cases j with
    | here => rfl
    | there j => exact ih j l.snd x (fun h => hne (congrArg Nat.succ h))

/-- C1: round-trip. For every sequence built from the empty sequence by a
chain of push calls, get with the position selecting slot k (k applications
of there to here, slots counted from the most recently pushed value at the
head) returns the value that was pushed into slot k; in particular, on
Nil.push(0 as i32).push(1 as i64), position zero yields the i64 value 1 and
position one yields the i32 value 0. -/
theorem chain_roundtrip :
    (∀ (vs : List HVal) (k : Fin vs.length),
      Find.get (chainIdx vs k) (buildChain vs) = (vs.get k).2) ∧
    Find.get (Find.here : Find [I64, I32] I64) exChain = I64.mk 1 ∧
    Find.get (Find.there Find.here : Find [I64, I32] I32) exChain = I32.mk 0 := by
  refine ⟨?_, rfl, rfl⟩
  intro vs
  induction vs with
  | nil => exact fun k => k.elim0
  | cons v vs ih =>
    intro k
    match k with
    | ⟨0, _⟩ => rfl
    | ⟨k + 1, h⟩ => exact ih ⟨k, Nat.lt_of_succ_lt_succ h⟩

/-- C2: the resolution algorithm has exactly two cases and follows them.
With index here on a node Cons T Tail, get and get_mut act on the head
field directly; with index there i on a node Cons Head Tail, they discard
the head, recurse into the tail with i, and return whatever the recursion
yields (for the lens of get_mut: the value read is the one the tail yields,
and writes go through the tail with the head untouched); and every index
derivation against a Cons node is of one of these two forms. -/
theorem find_two_cases :
    (∀ (T : Type) (t : List Type) (l : Cons T (hlistTy t)),
      Find.get (Find.here : Find (T :: t) T) l = l.fst ∧
      Find.get_mut (Find.here : Find (T :: t) T) l = (l.fst, fun x => Cons.mk x l.snd)) ∧
    (∀ (H T : Type) (t : List Type) (i : Find t T) (l : Cons H (hlistTy t)),
      Find.get (Find.there i) l = Find.get i l.snd ∧
      (Find.get_mut (Find.there i) l).1 = (Find.get_mut i l.snd).1 ∧
      ∀ x, (Find.get_mut (Find.there i) l).2 x = Cons.mk l.fst ((Find.get_mut i l.snd).2 x)) ∧
    (∀ (H T : Type) (t : List Type) (i : Find (H :: t) T),
      (∃ _ : T = H, HEq i (Find.here : Find (H :: t) H)) ∨
      (∃ j : Find t T, i = Find.there j)) := by
  refine ⟨fun T t l => ⟨rfl, rfl⟩, fun H T t i l => ⟨rfl, rfl, fun x => rfl⟩, ?_⟩
  intro H T t i
  cases i with
  | here => exact Or.inl ⟨rfl, HEq.rfl⟩
  | there j => exact Or.inr ⟨j, rfl⟩

/-- C3: mutation visibility with a frame condition. After writing x through
the reference returned by get_mut at position i, get at the same position i
returns x, and get at any other slot (an index selecting a different
position number) is unchanged; in particular, on Nil.push(5 as i32)
.push(Foo), setting the i32 slot to 6 and the String slot to Bar and then
reading both slots yields 6 and Bar. -/
theorem get_mut_write_read :
    (∀ (s : List Type) (T : Type) (i : Find s T) (l : hlistTy s) (x : T),
      Find.get i (Find.write i l x) = x) ∧
    (∀ (s : List Type) (T U : Type) (i : Find s T) (j : Find s U) (l : hlistTy s) (x : T),
      j.toNat ≠ i.toNat → Find.get j (Find.write i l x) = Find.get j l) ∧
    (Find.get iInt (Find.write iStr (Find.write iInt exMut (I32.mk 6)) "Bar") = I32.mk 6 ∧
      Find.get iStr (Find.write iStr (Find.write iInt exMut (I32.mk 6)) "Bar") = "Bar") :=
  ⟨fun _ _ i l x => Find.get_write_same i l x,
   fun _ _ _ i j l x hne => Find.get_write_other i j l x hne,
   rfl, rfl⟩

/-- C3 witness: at the concrete mutation example, the String slot (position
zero) differs from the i32 slot (position one), and writing 6 into the i32
slot leaves the String slot reading what it read before. -/
theorem get_mut_write_read_witness :
    Find.toNat iStr ≠ Find.toNat iInt ∧
    Find.get iStr (Find.write iInt exMut (I32.mk 6)) = Find.get iStr exMut :=
  ⟨by decide,
   get_mut_write_read.2.1 [String, I32] I32 String iInt iStr exMut (I32.mk 6) (by decide)⟩

/-- C4: push returns a new sequence whose head is the item and whose tail is
the original sequence, for a receiver and an item of any types whatsoever;
it is a total function built from a single constructor application, so it
has no error conditions. -/
theorem push_spec (L N : Type) (s : L) (x : N) :
    (HList.push s x).fst = x ∧ (HList.push s x).snd = s :=
  ⟨rfl, rfl⟩

/-- C5: duplicate disambiguation. For a sequence holding two elements of the
same type T pushed as push(a) then push(b), the position selecting zero
steps yields b and the position selecting one step yields a: occurrences of
a duplicated type are told apart purely by the explicit position. -/
theorem duplicate_disambiguation (T : Type) (t : List Type) (l : hlistTy t) (a b : T) :
    Find.get (Find.here : Find (T :: T :: t) T) (HList.push (HList.push l a) b) = b ∧
    Find.get (Find.there Find.here : Find (T :: T :: t) T)
      (HList.push (HList.push l a) b) = a :=
  ⟨rfl, rfl⟩

/-- C6: the static precondition and the absence of a runtime error path.
Against the empty sequence no derivation exists for any element type (the
request has no implementation path at all), and every derivation that does
exist lands, after walking its number of steps through the shape, on a slot
whose declared element type is exactly the requested one; get, get_mut and
push are total functions on such derivations, so no call can fail. -/
theorem static_precondition :
    (∀ T : Type, IsEmpty (Find ([] : List Type) T)) ∧
    (∀ (s : List Type) (T : Type) (i : Find s T), s.get? i.toNat = some T) := by
  constructor
  · intro T
    constructor
    intro i
    cases i
  · intro s T i
    induction i with
    | here => rfl
    | there j ih => exact ih

/-- C7: every operation terminates unconditionally. The recursion of get and
get_mut, run with any step budget larger than the number of there steps of
the index, completes and returns its unbudgeted result, and push reduces in
one step to a constructor application. -/
theorem find_terminates :
    (∀ (s : List Type) (T : Type) (i : Find s T) (l : hlistTy s) (fuel : Nat),
      i.toNat < fuel → Find.getFuel fuel i l = some (Find.get i l)) ∧
    (∀ (s : List Type) (T : Type) (i : Find s T) (l : hlistTy s) (fuel : Nat),
      i.toNat < fuel → Find.get_mutFuel fuel i l = some (Find.get_mut i l)) ∧
    (∀ (L N : Type) (x : L) (item : N), HList.push x item = Cons.mk item x) := by
  refine ⟨?_, ?_, fun L N x item => rfl⟩
  · intro s T i
    induction i with
    | here =>
      intro l fuel h
      cases fuel with
      | zero => exact absurd h (Nat.not_lt_zero _)
      | succ fuel => rfl
    | there j ih =>
      intro l fuel h
      cases fuel with
      | zero => exact absurd h (Nat.not_lt_zero _)
      | succ fuel => exact ih l.snd fuel (Nat.lt_of_succ_lt_succ h)
  · intro s T i
    induction i with
    | here =>
      intro l fuel h
      cases fuel with
      | zero => exact absurd h (Nat.not_lt_zero _)
      | succ fuel => rfl
    | there j ih =>
      intro l fuel h
      cases fuel with
      | zero => exact absurd h (Nat.not_lt_zero _)
      | succ fuel =>
        show (match Find.get_mutFuel fuel j l.snd with
          | none => none
          | some r => some (r.1, fun x => Cons.mk l.fst (r.2 x))) =
          some (Find.get_mut (Find.there j) l)
        rw [ih l.snd fuel (Nat.lt_of_succ_lt_succ h)]
        rfl

/-- C7 witness: the i32 slot of the mutation example sits one step deep, so
a budget of two steps completes and returns the unbudgeted result. -/
theorem find_terminates_witness :
    Find.toNat iInt < 2 ∧
    Find.getFuel 2 iInt exMut = some (Find.get iInt exMut) :=
  ⟨by decide, find_terminates.1 [String, I32] I32 iInt exMut 2 (by decide)⟩

/-- C8: push structural laws. On push(l, x), the position selecting zero
steps reads back x, and the position selecting one more step than i reads
what i read in l: push inserts at position zero and shifts every existing
slot by exactly one. -/
theorem push_get_laws (t : List Type) (N T : Type) (l : hlistTy t) (x : N) (i : Find t T) :
    Find.get (Find.here : Find (N :: t) N) (HList.push l x) = x ∧
    Find.get (Find.there i) (HList.push l x) = Find.get i l :=
  ⟨rfl, rfl⟩

/-- C9: get and get_mut resolve the same slot: the value behind the
reference returned by get_mut, before any write is performed, equals the
value returned by get. -/
theorem get_mut_agrees_with_get (s : List Type) (T : Type) (i : Find s T) :
    ∀ l : hlistTy s, (Find.get_mut i l).1 = Find.get i l := by
  induction i with
  | here => intro l; rfl
  | there j ih => intro l; exact ih l.snd

/-- C10: slot locality. The result of get at position i depends only on the
element stored in the slot i selects: any two sequences of the same shape
that agree there give equal results, whatever every other slot holds; get
is embedded as a pure function of the sequence value, so it does not modify
the sequence. -/
theorem get_slot_local (s : List Type) (T : Type) (i : Find s T) :
    ∀ l1 l2 : hlistTy s, Find.sameAt i l1 l2 → Find.get i l1 = Find.get i l2 := by
  induction i with
  | here => intro l1 l2 h; exact h
  | there j ih => intro l1 l2 h; exact ih l1.snd l2.snd h

/-- C10 witness: the mutation example and its variant differ in the head
slot but agree in the i32 slot, and get at the i32 position returns the
same value on both. -/
theorem get_slot_local_witness :
    Find.sameAt iInt exMut exMut2 ∧ Find.get iInt exMut = Find.get iInt exMut2 :=
  ⟨rfl, get_slot_local [String, I32] I32 iInt exMut exMut2 rfl⟩
